import Mathlib

/-
Shallow embedding of src/leaf/src/proxy/quic/inbound/datagram.rs.

The external QUIC/TLS engine (quinn, rustls, rustls_pemfile, the file
system) is modelled as an environment of abstract values and result
functions; the control flow of `Incoming::poll_next` and `Handler::new`
is translated statement by statement from the source.
-/

namespace QuicInbound

/-- A pending handshake attempt (`quinn::Connecting`), identified abstractly. -/
structure Connecting where
  hid : Nat
deriving DecidableEq

/-- An established QUIC connection (`quinn::Connection`); `remote_address`
models `conn.remote_address()`, with socket addresses abstracted as numbers. -/
structure Connection where
  cid : Nat
  remote_address : Nat
deriving DecidableEq

/-- The write half of an accepted bidirectional stream (`quinn::SendStream`);
`id_index` models `send.id().index()`. -/
structure SendStream where
  id_index : Nat
deriving DecidableEq

/-- The read half of an accepted bidirectional stream (`quinn::RecvStream`). -/
structure RecvStream where
  rid : Nat
deriving DecidableEq

/-- Result of polling a `Connecting` future once (line 65 of the source). -/
inductive HsRes where
  | success (conn : Connection)
  | failure
  | pending
deriving DecidableEq

/-- Result of polling `conn.accept_bi()` once (line 89 of the source). -/
inductive BiRes where
  | ok (send : SendStream) (recv : RecvStream)
  | err
  | pending
deriving DecidableEq

/-- The two `Session` fields this core populates (lines 91 to 95); all other
fields stay at their defaults and are out of scope. -/
structure Session where
  source : Nat
  stream_id : Option Nat
deriving DecidableEq

/-- An Accepted Unit: `AnyBaseInboundTransport::Stream(Box::new(QuicProxyStream
{ recv, send }), sess)` (lines 96 to 99). -/
structure AcceptedUnit where
  recv : RecvStream
  send : SendStream
  sess : Session
deriving DecidableEq

/-- The outcome of one `poll_next` call: `Poll::Ready(Some(item))`,
`Poll::Ready(None)` or `Poll::Pending` (lines 113 to 119). -/
inductive PollOut where
  | item (u : AcceptedUnit)
  | finished
  | pending
deriving DecidableEq

/-- The mutable state of `struct Incoming` (lines 19 to 24); the endpoint
itself is external and its behaviour is supplied by `Env`. -/
structure IncomingState where
  connectings : List Connecting
  conns : List Connection
  incoming_closed : Bool
deriving DecidableEq

/-- Behaviour of the external engine during one production step:
the accept loop of lines 44 to 56 yields the connectings `new_connectings`
and then either `Poll::Ready(None)` (`accept_closed = true`) or
`Poll::Pending` (`accept_closed = false`); `hs_poll` gives the result of
polling each pending handshake once; `bi_poll` gives the result of polling
`accept_bi` on each established connection once. -/
structure Env where
  new_connectings : List Connecting
  accept_closed : Bool
  hs_poll : Connecting → HsRes
  bi_poll : Connection → BiRes

/-- Stage 1 (lines 41 to 59): unless closure was already recorded, drain the
endpoint accept loop, append the obtained connectings and record closure. -/
def drainAccept (env : Env) (s : IncomingState) : IncomingState :=
  if s.incoming_closed then s
  else { s with
         incoming_closed := env.accept_closed,
         connectings := s.connectings ++ env.new_connectings }

/-- Output of the handshake-advance loop of lines 62 to 74: `conns` and
`completed` are the two vectors pushed in the loop, `polled` is a ghost trace
of the entries polled, in loop order. -/
structure HsScanOut where
  conns : List Connection
  completed : List Nat
  polled : List Connecting
deriving DecidableEq

/-- The handshake-advance loop (lines 62 to 74): poll every entry of
`connectings` once, at enumeration indices starting from `i`; successes are
pushed on `conns`, success and failure indices are pushed on `completed`. -/
def hsScan (h : Connecting → HsRes) : Nat → List Connecting → HsScanOut
  | _, [] => ⟨[], [], []⟩
  | i, c :: rest =>
    let r := hsScan h (i + 1) rest
    match h c with
    | .success conn => ⟨conn :: r.conns, i :: r.completed, c :: r.polled⟩
    | .failure => ⟨r.conns, i :: r.completed, c :: r.polled⟩
    | .pending => ⟨r.conns, r.completed, c :: r.polled⟩

/-- `Vec::swap_remove(i)`: replace the element at `i` by the last element and
shorten by one; callers only use valid indices. -/
def swapRemove (l : List α) (i : Nat) : List α :=
  match l.getLast? with
  | none => l
  | some b => (l.set i b).dropLast

/-- Lines 81 to 83: `for idx in completed.iter().rev() closing with
self.connectings.swap_remove(idx)` at descending indices. -/
def removeBySwapDesc (l : List α) (completed : List Nat) : List α :=
  completed.reverse.foldl swapRemove l

/-- Construction of the Accepted Unit from lines 90 to 99: the `Session`
takes `source` from `conn.remote_address()` and `stream_id` from
`send.id().index()`, and is paired with the two stream halves. -/
def mkAccepted (conn : Connection) (send : SendStream) (recv : RecvStream) :
    AcceptedUnit :=
  { recv := recv, send := send,
    sess := { source := conn.remote_address, stream_id := some send.id_index } }

/-- Output of the stream-accept loop of lines 86 to 108: `item` is the local
`stream` option, `completed` the failure indices, `polled` a ghost trace of
the connections polled, in loop order. -/
structure ConnScanOut where
  item : Option AcceptedUnit
  completed : List Nat
  polled : List Connection
deriving DecidableEq

/-- The stream-accept loop (lines 86 to 108): poll `accept_bi` on each
connection at enumeration indices from `i`; the first ready stream builds the
Accepted Unit and breaks the loop, an error pushes the index on `completed`,
pending leaves the connection alone. -/
def connScan (b : Connection → BiRes) : Nat → List Connection → ConnScanOut
  | _, [] => ⟨none, [], []⟩
  | i, c :: rest =>
    match b c with
    | .ok send recv => ⟨some (mkAccepted c send recv), [], [c]⟩
    | .err =>
      let r := connScan b (i + 1) rest
      ⟨r.item, i :: r.completed, c :: r.polled⟩
    | .pending =>
      let r := connScan b (i + 1) rest
      ⟨r.item, r.completed, c :: r.polled⟩

/-- Lines 109 to 111: `for idx in completed.iter().rev() closing with
self.conns.remove(idx)`, the order-preserving `Vec::remove`, at descending
indices. -/
def removeByIdxDesc (l : List α) (completed : List Nat) : List α :=
  completed.reverse.foldl List.eraseIdx l

/-- The state after stage 1 and stage 2 of `poll_next` (lines 41 to 84):
handshakes advanced, resolved connections appended to `conns`, resolved and
failed entries swap-removed from `connectings`. -/
def stateAfterHs (env : Env) (s : IncomingState) : IncomingState :=
  let s1 := drainAccept env s
  let hs := hsScan env.hs_poll 0 s1.connectings
  { connectings := removeBySwapDesc s1.connectings hs.completed,
    conns := s1.conns ++ hs.conns,
    incoming_closed := s1.incoming_closed }

/-- The completion check of lines 113 to 119: emit the Accepted Unit if one
was produced, otherwise finish exactly when closure is recorded and both sets
are empty, otherwise stay pending. All three fields are read from the updated
state. -/
def completionCheck (item : Option AcceptedUnit) (s3 : IncomingState) : PollOut :=
  match item with
  | some u => .item u
  | none =>
    if s3.incoming_closed ∧ s3.connectings = [] ∧ s3.conns = [] then .finished
    else .pending

/-- One production step, `Incoming::poll_next` (lines 40 to 120): stages 1
and 2 via `stateAfterHs`, then the stream-accept scan with removal of failed
connections, then the completion check on the updated fields. -/
def pollNext (env : Env) (s : IncomingState) : PollOut × IncomingState :=
  let s2 := stateAfterHs env s
  let cs := connScan env.bi_poll 0 s2.conns
  let s3 : IncomingState := { s2 with conns := removeByIdxDesc s2.conns cs.completed }
  (completionCheck cs.item s3, s3)

/-- Repeated production steps: the consumer pulls once per environment. -/
def runSteps : List Env → IncomingState → List PollOut × IncomingState
  | [], s => ([], s)
  | e :: es, s =>
    let r := pollNext e s
    let rest := runSteps es r.2
    (r.1 :: rest.1, rest.2)

/-- Whether a handshake poll result leaves the entry pending. -/
def HsRes.isPending : HsRes → Bool
  | .pending => true
  | _ => false

/-- The connection a handshake poll resolves to, if it resolves successfully. -/
def resolvedConn (h : Connecting → HsRes) (c : Connecting) : Option Connection :=
  match h c with
  | .success conn => some conn
  | _ => none

/-- Whether a stream-accept poll result is not ready yet. -/
def BiRes.isPending : BiRes → Bool
  | .pending => true
  | _ => false

/-- Whether a stream-accept poll result is a ready stream. -/
def BiRes.isOk : BiRes → Bool
  | .ok _ _ => true
  | _ => false

/-
Handler construction, `Handler::new` (lines 134 to 198). File contents are
byte lists; the file system and the rustls_pemfile parsers are environment
functions.
-/

/-- The last component of a character list after the separator `sep`;
used to model `Path` file-name and extension splitting. -/
def lastComponentAfter (sep : Char) (l : List Char) : List Char :=
  l.foldl (fun acc ch => if ch = sep then [] else acc ++ [ch]) []

/-- `Path::new(p).extension()` on a UTF-8 path, per the documented std rule:
no extension when there is no file name, no embedded dot, or the only dot is
the leading one; otherwise the portion of the file name after the final dot. -/
def extensionOf (p : String) : Option String :=
  match lastComponentAfter '/' p.data with
  | [] => none
  | _ :: rest =>
    if rest.contains '.' then some (String.mk (lastComponentAfter '.' rest))
    else none

/-- A certificate in binary form (`rustls::Certificate`). -/
structure Certificate where
  der : List Nat
deriving DecidableEq

/-- A private key in binary form (`rustls::PrivateKey`). -/
structure PrivateKey where
  der : List Nat
deriving DecidableEq

/-- The error value of `Handler::new` (an `anyhow::Result`): propagated file
system, PEM-parse or TLS-build errors, or the explicit
`anyhow!("no private keys found")`. -/
inductive HandlerError where
  | ioError (msg : String)
  | pemError (msg : String)
  | tlsError (msg : String)
  | noPrivateKeysFound
deriving DecidableEq

/-- The file system: `fs::read` per path. -/
structure FsEnv where
  read : String → Except String (List Nat)

/-- The `rustls_pemfile` text parsers: each returns either a parse error or
the list of decoded binary blocks. -/
structure PemEnv where
  certs : List Nat → Except String (List (List Nat))
  pkcs8_private_keys : List Nat → Except String (List (List Nat))
  rsa_private_keys : List Nat → Except String (List (List Nat))
  ec_private_keys : List Nat → Except String (List (List Nat))

/-- The cryptographic identity produced by `with_single_cert`, abstract. -/
structure TlsIdent where
  ident : Nat
deriving DecidableEq

/-- The rustls builder chain endpoint:
`ServerConfig::builder().with_safe_defaults().with_no_client_auth()
.with_single_cert(cert, key)`. -/
structure TlsEnv where
  with_single_cert : List Certificate → PrivateKey → Except String TlsIdent

/-- The rustls `ServerConfig` as far as this core touches it: the identity
and the `alpn_protocols` vector, which the builder leaves empty. -/
structure ServerCryptoConfig where
  ident : TlsIdent
  alpn_protocols : List (List Nat)
deriving DecidableEq

/-- Congestion controller choice: quinn defaults to Cubic; the source
installs `quinn::congestion::BbrConfig`. -/
inductive CongestionAlg where
  | cubic
  | bbr
deriving DecidableEq

/-- The quinn `TransportConfig` fields the source sets. -/
structure TransportConfig where
  max_concurrent_bidi_streams : Nat
  max_idle_timeout : Option Nat
  congestion : CongestionAlg
deriving DecidableEq

/-- `quinn::TransportConfig::default()`; only fields the source later
overwrites matter to the claims, the values here are the quinn defaults. -/
def TransportConfig.default : TransportConfig :=
  { max_concurrent_bidi_streams := 100,
    max_idle_timeout := none,
    congestion := .cubic }

/-- The quinn `ServerConfig`: crypto plus transport configuration. -/
structure ServerConfig where
  crypto : ServerCryptoConfig
  transport : TransportConfig
deriving DecidableEq

/-- `quinn::ServerConfig::with_crypto`: install the crypto configuration and
a default transport configuration. -/
def ServerConfig.with_crypto (c : ServerCryptoConfig) : ServerConfig :=
  { crypto := c, transport := TransportConfig.default }

/-- `pub struct Handler` (lines 129 to 131). -/
structure Handler where
  server_config : ServerConfig
deriving DecidableEq

/-- UTF-8 encoding of one character, modelling Rust `str::as_bytes`. -/
def utf8BytesOfChar (c : Char) : List Nat :=
  let n := c.toNat
  if n < 128 then [n]
  else if n < 2048 then [192 + n / 64, 128 + n % 64]
  else if n < 65536 then [224 + n / 4096, 128 + n / 64 % 64, 128 + n % 64]
  else [240 + n / 262144, 128 + n / 4096 % 64, 128 + n / 64 % 64, 128 + n % 64]

/-- `alpn.as_bytes().to_vec()`: the UTF-8 byte encoding of a string. -/
def strBytes (s : String) : List Nat :=
  s.data.flatMap utf8BytesOfChar

/-- The certificate branch of `Handler::new` (lines 140 to 147): a `.der`
extension means one binary certificate, anything else is parsed as a PEM
certificate chain. -/
def loadCert (pem : PemEnv) (certificate : String) (certBytes : List Nat) :
    Except HandlerError (List Certificate) :=
  if extensionOf certificate = some "der" then .ok [⟨certBytes⟩]
  else
    match pem.certs certBytes with
    | .error e => .error (.pemError e)
    | .ok blocks => .ok (blocks.map Certificate.mk)

/-- The text-encoded key chain of `Handler::new` (lines 154 to 174): try
PKCS8, then RSA, then elliptic-curve, each parse error propagating
immediately via the question-mark operator, each empty parse falling through
to the next format, and a final explicit error when all three are empty. -/
def loadTextKey (pem : PemEnv) (keyBytes : List Nat) :
    Except HandlerError PrivateKey :=
  match pem.pkcs8_private_keys keyBytes with
  | .error e => .error (.pemError e)
  | .ok pkcs8 =>
    match pkcs8.head? with
    | some x => .ok ⟨x⟩
    | none =>
      match pem.rsa_private_keys keyBytes with
      | .error e => .error (.pemError e)
      | .ok rsa =>
        match rsa.head? with
        | some x => .ok ⟨x⟩
        | none =>
          match pem.ec_private_keys keyBytes with
          | .error e => .error (.pemError e)
          | .ok ec =>
            match ec.head? with
            | some x => .ok ⟨x⟩
            | none => .error .noPrivateKeysFound

/-- The key branch of `Handler::new` (lines 149 to 175): a `.der` extension
means one binary key, anything else goes through the text-encoded chain. -/
def loadKey (pem : PemEnv) (certificate_key : String) (keyBytes : List Nat) :
    Except HandlerError PrivateKey :=
  if extensionOf certificate_key = some "der" then .ok ⟨keyBytes⟩
  else loadTextKey pem keyBytes

/-- `Handler::new` (lines 134 to 198): read both files, load certificate
chain and key by extension, build the crypto config, push the ALPN byte
strings in caller order, fix the three transport parameters and assemble the
server configuration. -/
def handlerNew (fs : FsEnv) (pem : PemEnv) (tls : TlsEnv)
    (certificate certificate_key : String) (alpns : List String) :
    Except HandlerError Handler :=
  match fs.read certificate with
  | .error e => .error (.ioError e)
  | .ok certBytes =>
    match fs.read certificate_key with
    | .error e => .error (.ioError e)
    | .ok keyBytes =>
      match loadCert pem certificate certBytes with
      | .error e => .error e
      | .ok cert =>
        match loadKey pem certificate_key keyBytes with
        | .error e => .error e
        | .ok key =>
          match tls.with_single_cert cert key with
          | .error e => .error (.tlsError e)
          | .ok ident =>
            let crypto : ServerCryptoConfig :=
              { ident := ident, alpn_protocols := [] }
            let crypto := alpns.foldl
              (fun cr alpn =>
                { cr with alpn_protocols := cr.alpn_protocols ++ [strBytes alpn] })
              crypto
            let transport := TransportConfig.default
            let transport := { transport with max_concurrent_bidi_streams := 64 }
            let transport := { transport with max_idle_timeout := some 300000 }
            let transport := { transport with congestion := CongestionAlg.bbr }
            let server_config := ServerConfig.with_crypto crypto
            let server_config := { server_config with transport := transport }
            .ok { server_config := server_config }

/-
Sample values used to evaluate the theorems on concrete inputs.
-/

/-- A sample established connection. -/
def conn1 : Connection := ⟨1, 17⟩

/-- A second sample established connection. -/
def conn2 : Connection := ⟨2, 23⟩

/-- A third sample established connection. -/
def conn3 : Connection := ⟨3, 29⟩

/-- A sample stream write half with index 7. -/
def send7 : SendStream := ⟨7⟩

/-- A sample stream read half. -/
def recv8 : RecvStream := ⟨8⟩

/-- An environment in which only `conn2` has a ready bidirectional stream. -/
def envOkOn2 : Env :=
  { new_connectings := [], accept_closed := false,
    hs_poll := fun _ => .pending,
    bi_poll := fun c => if c = conn2 then .ok send7 recv8 else .pending }

/-- An environment in which only `conn2` fails its stream accept. -/
def envErrOn2 : Env :=
  { new_connectings := [], accept_closed := false,
    hs_poll := fun _ => .pending,
    bi_poll := fun c => if c = conn2 then .err else .pending }

/-- An environment in which the endpoint reports closure and nothing else
happens. -/
def envClosed : Env :=
  { new_connectings := [], accept_closed := true,
    hs_poll := fun _ => .pending, bi_poll := fun _ => .pending }

/-- A state with two established connections and nothing pending. -/
def st12 : IncomingState := ⟨[], [conn1, conn2], false⟩

/-- A state with three established connections and nothing pending. -/
def st123 : IncomingState := ⟨[], [conn1, conn2, conn3], false⟩

/-- A state with one established connection and nothing pending. -/
def st1 : IncomingState := ⟨[], [conn1], false⟩

/-- The terminal state: closure recorded, both sets empty. -/
def stEmptyClosed : IncomingState := ⟨[], [], true⟩

/-- A sample file system whose reads all succeed. -/
def fsSample : FsEnv := ⟨fun _ => .ok [1, 2]⟩

/-- A sample PEM environment: one certificate block, one PKCS8 key block. -/
def pemSample : PemEnv :=
  ⟨fun _ => .ok [[1]], fun _ => .ok [[2]], fun _ => .ok [], fun _ => .ok []⟩

/-- A sample PEM environment with only an RSA key block. -/
def pemRsaOnly : PemEnv :=
  ⟨fun _ => .ok [], fun _ => .ok [], fun _ => .ok [[9]], fun _ => .ok []⟩

/-- A sample PEM environment with no parseable key of any kind. -/
def pemNoKeys : PemEnv :=
  ⟨fun _ => .ok [[1]], fun _ => .ok [], fun _ => .ok [], fun _ => .ok []⟩

/-- A sample PEM environment whose PKCS8 parse itself fails. -/
def pemPkcs8Fails : PemEnv :=
  ⟨fun _ => .ok [[1]], fun _ => .error "bad pem", fun _ => .ok [[9]],
    fun _ => .ok [[9]]⟩

/-- A sample TLS builder that always succeeds. -/
def tlsSample : TlsEnv := ⟨fun _ _ => .ok ⟨0⟩⟩

/-- The handler `handlerNew` builds from the sample environments with ALPN
list `["h3"]`. -/
def handlerSample : Handler :=
  { server_config :=
    { crypto := { ident := ⟨0⟩, alpn_protocols := [[104, 51]] },
      transport :=
      { max_concurrent_bidi_streams := 64,
        max_idle_timeout := some 300000,
        congestion := .bbr } } }

/-
Helper lemmas about the handshake-advance pass.
-/

theorem hsScan_conns (h : Connecting → HsRes) (i : Nat) (l : List Connecting) :
    (hsScan h i l).conns = l.filterMap (resolvedConn h) := by
  induction l generalizing i with
  | nil => rfl
  | cons c rest ih =>
    simp only [hsScan, List.filterMap_cons, resolvedConn]
    cases hc : h c <;> simp [hc, ih]

theorem hsScan_polled (h : Connecting → HsRes) (i : Nat) (l : List Connecting) :
    (hsScan h i l).polled = l := by
  induction l generalizing i with
  | nil => rfl
  | cons c rest ih =>
    simp only [hsScan]
    cases hc : h c <;> simp [hc, ih]

theorem hsScan_completed_append (h : Connecting → HsRes) (i : Nat)
    (xs ys : List Connecting) :
    (hsScan h i (xs ++ ys)).completed =
      (hsScan h i xs).completed ++ (hsScan h (i + xs.length) ys).completed := by
  induction xs generalizing i with
  | nil => simp [hsScan]
  | cons c rest ih =>
    simp only [List.cons_append, hsScan]
    cases hc : h c <;>
      simp [hc, ih (i + 1), Nat.add_comm, Nat.add_assoc, Nat.add_left_comm]

theorem hsScan_completed_all_pending (h : Connecting → HsRes) (i : Nat)
    (l : List Connecting) (hp : ∀ c ∈ l, (h c).isPending = true) :
    (hsScan h i l).completed = [] := by
  induction l generalizing i with
  | nil => rfl
  | cons c rest ih =>
    have hc : h c = .pending := by
      have := hp c (by simp)
      cases hcc : h c <;> simp [hcc, HsRes.isPending] at this ⊢
    simp only [hsScan, hc]
    exact ih (i + 1) fun x hx => hp x (by simp [hx])

theorem set_length_append (l₁ : List α) (a b : α) (l₂ : List α) :
    (l₁ ++ a :: l₂).set l₁.length b = l₁ ++ b :: l₂ := by
  induction l₁ with
  | nil => rfl
  | cons x xs ih => simp [List.set, ih]

theorem swapRemove_last (l₁ : List α) (a : α) :
    swapRemove (l₁ ++ [a]) l₁.length = l₁ := by
  simp only [swapRemove, List.getLast?_append]
  have h1 : (l₁ ++ [a]).getLast? = some a := by
    simp [List.getLast?_append]
  rw [show l₁ ++ [a] = l₁ ++ a :: [] from rfl]
  simp [List.getLast?_append, set_length_append]

theorem swapRemove_mid (l₁ : List α) (a : α) (l₂ : List α) (hne : l₂ ≠ []) :
    swapRemove (l₁ ++ a :: l₂) l₁.length =
      l₁ ++ l₂.getLast hne :: l₂.dropLast := by
  have hglast : (l₁ ++ a :: l₂).getLast? = some (l₂.getLast hne) := by
    rw [List.getLast?_append]
    cases l₂ with
    | nil => exact absurd rfl hne
    | cons y ys =>
      simp [List.getLast?_eq_getLast _ (by simp : y :: ys ≠ ([] : List α)),
        List.getLast_cons hne]
  simp only [swapRemove, hglast, set_length_append]
  rw [show l₁ ++ l₂.getLast hne :: l₂ = l₁ ++ ([l₂.getLast hne] ++ l₂) by simp]
  rw [← List.append_assoc, List.dropLast_append_of_ne_nil _ hne]
  simp

theorem exists_last_not (p : α → Bool) (l : List α) (hne : ¬ l.all p = true) :
    ∃ l₁ a l₂, l = l₁ ++ a :: l₂ ∧ p a = false ∧ ∀ c ∈ l₂, p c = true := by
  induction l with
  | nil => simp at hne
  | cons x xs ih =>
    by_cases hxs : xs.all p = true
    · have hx : p x = false := by
        cases hpx : p x
        · rfl
        · exact absurd (by simp [List.all_cons, hpx, hxs]) hne
      exact ⟨[], x, xs, by simp, hx, fun c hc => List.all_eq_true.mp hxs c hc⟩
    · obtain ⟨l₁, a, l₂, heq, ha, hl₂⟩ := ih hxs
      exact ⟨x :: l₁, a, l₂, by simp [heq], ha, hl₂⟩

theorem removeBySwapDesc_perm_aux (h : Connecting → HsRes) :
    ∀ n (l : List Connecting), l.length ≤ n →
      List.Perm (removeBySwapDesc l (hsScan h 0 l).completed)
        (l.filter (fun c => (h c).isPending)) := by
  intro n
  induction n with
  | zero =>
    intro l hl
    have : l = [] := List.eq_nil_of_length_eq_zero (Nat.le_zero.mp hl)
    subst this
    simp [removeBySwapDesc, hsScan]
  | succ n ih =>
    intro l hl
    by_cases hall : l.all (fun c => (h c).isPending) = true
    · have hc0 : (hsScan h 0 l).completed = [] :=
        hsScan_completed_all_pending h 0 l (List.all_eq_true.mp hall)
      have hfilt : l.filter (fun c => (h c).isPending) = l :=
        List.filter_eq_self.mpr (List.all_eq_true.mp hall)
      rw [hc0, hfilt]
      exact List.Perm.refl l
    · obtain ⟨l₁, a, l₂, heq, ha, hl₂⟩ :=
        exists_last_not (fun c => (h c).isPending) l hall
      subst heq
      have hcomp : (hsScan h 0 (l₁ ++ a :: l₂)).completed =
          (hsScan h 0 l₁).completed ++ [l₁.length] := by
        rw [hsScan_completed_append]
        have htail : (hsScan h (0 + l₁.length) (a :: l₂)).completed =
            [l₁.length] := by
          have hrest : (hsScan h (l₁.length + 1) l₂).completed = [] :=
            hsScan_completed_all_pending h _ l₂ hl₂
          simp only [hsScan, Nat.zero_add]
          cases hca : h a <;> simp [hca, HsRes.isPending, hrest] at ha ⊢
        rw [htail]
      have hfoldl : removeBySwapDesc (l₁ ++ a :: l₂)
          ((hsScan h 0 l₁).completed ++ [l₁.length]) =
          (hsScan h 0 l₁).completed.reverse.foldl swapRemove
            (swapRemove (l₁ ++ a :: l₂) l₁.length) := by
        simp [removeBySwapDesc, List.reverse_append]
      rw [hcomp, hfoldl]
      by_cases hne : l₂ = []
      · subst hne
        rw [show swapRemove (l₁ ++ a :: []) l₁.length = l₁ from
          swapRemove_last l₁ a]
        have hlen : l₁.length ≤ n := by
          have := hl
          simp only [List.length_append, List.length_cons] at this
          omega
        have hperm := ih l₁ hlen
        rw [removeBySwapDesc] at hperm
        refine hperm.trans ?_
        simp [List.filter_append, List.filter_cons, ha]
      · rw [swapRemove_mid l₁ a l₂ hne]
        set g := l₂.getLast hne with hg
        have hgpend : (h g).isPending = true := by
          apply hl₂
          exact List.getLast_mem hne
        have hdroppend : ∀ c ∈ l₂.dropLast, (h c).isPending = true := by
          intro c hc
          apply hl₂
          have : l₂.dropLast ++ [g] = l₂ := List.dropLast_append_getLast hne
          rw [← this]
          exact List.mem_append_left _ hc
        have hcomp2 : (hsScan h 0 (l₁ ++ g :: l₂.dropLast)).completed =
            (hsScan h 0 l₁).completed := by
          rw [hsScan_completed_append]
          have : (hsScan h (0 + l₁.length) (g :: l₂.dropLast)).completed = [] := by
            apply hsScan_completed_all_pending
            intro c hc
            rcases List.mem_cons.mp hc with hc | hc
            · subst hc; exact hgpend
            · exact hdroppend c hc
          rw [this, List.append_nil]
        have hlen2 : (l₁ ++ g :: l₂.dropLast).length ≤ n := by
          have h2 : l₂.dropLast.length = l₂.length - 1 := List.length_dropLast l₂
          have h4 : 0 < l₂.length := List.length_pos.mpr hne
          have h3 : (l₁ ++ a :: l₂).length ≤ n + 1 := hl
          simp only [List.length_append, List.length_cons] at h3 ⊢
          omega
        have hperm := ih (l₁ ++ g :: l₂.dropLast) hlen2
        rw [removeBySwapDesc, hcomp2] at hperm
        refine hperm.trans ?_
        rw [List.filter_append, List.filter_append]
        apply List.Perm.append_left
        have hfg : List.filter (fun c => (h c).isPending) (g :: l₂.dropLast) =
            g :: l₂.dropLast := by
          apply List.filter_eq_self.mpr
          intro c hc
          rcases List.mem_cons.mp hc with hc | hc
          · subst hc; exact hgpend
          · exact hdroppend c hc
        have hfa : List.filter (fun c => (h c).isPending) (a :: l₂) = l₂ := by
          rw [List.filter_cons, ha]
          simp [List.filter_eq_self.mpr hl₂]
        rw [hfg, hfa]
        have hsplit : l₂.dropLast ++ [g] = l₂ := List.dropLast_append_getLast hne
        have hp1 : List.Perm (g :: l₂.dropLast) (l₂.dropLast ++ [g]) :=
          (List.perm_append_singleton g l₂.dropLast).symm
        rw [hsplit] at hp1
        exact hp1

theorem removeBySwapDesc_perm (h : Connecting → HsRes) (l : List Connecting) :
    List.Perm (removeBySwapDesc l (hsScan h 0 l).completed)
      (l.filter (fun c => (h c).isPending)) :=
  removeBySwapDesc_perm_aux h l.length l (Nat.le_refl _)

/-
Helper lemmas about the stream-accept pass.
-/

theorem connScan_shift (b : Connection → BiRes) (i : Nat) (l : List Connection) :
    connScan b (i + 1) l =
      ⟨(connScan b i l).item, (connScan b i l).completed.map (· + 1),
        (connScan b i l).polled⟩ := by
  induction l generalizing i with
  | nil => rfl
  | cons c rest ih =>
    simp only [connScan]
    cases hc : b c <;> simp [hc, ih (i + 1)]

theorem foldl_eraseIdx_shift (js : List Nat) :
    ∀ (c : α) (l : List α),
      (js.map (· + 1)).foldl List.eraseIdx (c :: l) =
        c :: js.foldl List.eraseIdx l := by
  induction js with
  | nil => intro c l; rfl
  | cons j js ih =>
    intro c l
    simp only [List.map_cons, List.foldl_cons, List.eraseIdx]
    exact ih c (l.eraseIdx j)

theorem removeByIdxDesc_zero_cons (c : α) (l : List α) (js : List Nat) :
    removeByIdxDesc (c :: l) (0 :: js.map (· + 1)) =
      removeByIdxDesc l js := by
  simp only [removeByIdxDesc, List.reverse_cons, List.foldl_append,
    ← List.map_reverse, foldl_eraseIdx_shift]
  rfl

theorem removeByIdxDesc_cons_shift (c : α) (l : List α) (js : List Nat) :
    removeByIdxDesc (c :: l) (js.map (· + 1)) = c :: removeByIdxDesc l js := by
  simp only [removeByIdxDesc, ← List.map_reverse, foldl_eraseIdx_shift]

theorem connScan_no_ok (b : Connection → BiRes) (l : List Connection)
    (hno : ∀ c ∈ l, (b c).isOk = false) :
    (connScan b 0 l).item = none ∧
    removeByIdxDesc l (connScan b 0 l).completed =
      l.filter (fun c => (b c).isPending) ∧
    (connScan b 0 l).polled = l := by
  induction l with
  | nil => exact ⟨rfl, rfl, rfl⟩
  | cons c rest ih =>
    have hc := hno c (by simp)
    have hrest := ih fun x hx => hno x (by simp [hx])
    cases hbc : b c with
    | ok send recv => simp [hbc, BiRes.isOk] at hc
    | err =>
      simp only [connScan, hbc, connScan_shift b 0 rest]
      refine ⟨hrest.1, ?_, by simp [hrest.2.2]⟩
      rw [removeByIdxDesc_zero_cons]
      rw [hrest.2.1]
      simp [List.filter_cons, hbc, BiRes.isPending]
    | pending =>
      simp only [connScan, hbc, connScan_shift b 0 rest]
      refine ⟨hrest.1, ?_, by simp [hrest.2.2]⟩
      rw [removeByIdxDesc_cons_shift]
      rw [hrest.2.1]
      simp [List.filter_cons, hbc, BiRes.isPending]

theorem connScan_first_ok (b : Connection → BiRes) (l₁ : List Connection)
    (c : Connection) (l₂ : List Connection) (send : SendStream)
    (recv : RecvStream) (hno : ∀ x ∈ l₁, (b x).isOk = false)
    (hc : b c = .ok send recv) :
    (connScan b 0 (l₁ ++ c :: l₂)).item = some (mkAccepted c send recv) ∧
    removeByIdxDesc (l₁ ++ c :: l₂) (connScan b 0 (l₁ ++ c :: l₂)).completed =
      l₁.filter (fun x => (b x).isPending) ++ c :: l₂ ∧
    (connScan b 0 (l₁ ++ c :: l₂)).polled = l₁ ++ [c] := by
  induction l₁ with
  | nil =>
    refine ⟨?_, ?_, ?_⟩ <;> simp [connScan, hc, removeByIdxDesc]
  | cons x xs ih =>
    have hx := hno x (by simp)
    have hrest := ih fun y hy => hno y (by simp [hy])
    cases hbx : b x with
    | ok send2 recv2 => simp [hbx, BiRes.isOk] at hx
    | err =>
      simp only [List.cons_append, connScan, hbx, connScan_shift b 0,
        List.append_eq]
      refine ⟨hrest.1, ?_, by simp [hrest.2.2]⟩
      rw [removeByIdxDesc_zero_cons]
      rw [hrest.2.1]
      simp [List.filter_cons, hbx, BiRes.isPending]
    | pending =>
      simp only [List.cons_append, connScan, hbx, connScan_shift b 0,
        List.append_eq]
      refine ⟨hrest.1, ?_, by simp [hrest.2.2]⟩
      rw [removeByIdxDesc_cons_shift]
      rw [hrest.2.1]
      simp [List.filter_cons, hbx, BiRes.isPending]

theorem connScan_item_some (b : Connection → BiRes) (i : Nat)
    (l : List Connection) (u : AcceptedUnit)
    (hu : (connScan b i l).item = some u) :
    ∃ c send recv, c ∈ l ∧ b c = .ok send recv ∧ u = mkAccepted c send recv := by
  induction l generalizing i with
  | nil => simp [connScan] at hu
  | cons c rest ih =>
    cases hbc : b c with
    | ok send recv =>
      simp only [connScan, hbc, Option.some.injEq] at hu
      exact ⟨c, send, recv, by simp, hbc, hu.symm⟩
    | err =>
      simp only [connScan, hbc] at hu
      obtain ⟨d, send, recv, hd, hbd, hud⟩ := ih (i + 1) hu
      exact ⟨d, send, recv, by simp [hd], hbd, hud⟩
    | pending =>
      simp only [connScan, hbc] at hu
      obtain ⟨d, send, recv, hd, hbd, hud⟩ := ih (i + 1) hu
      exact ⟨d, send, recv, by simp [hd], hbd, hud⟩

theorem connScan_polled_subset (b : Connection → BiRes) (i : Nat)
    (l : List Connection) : ∀ x ∈ (connScan b i l).polled, x ∈ l := by
  induction l generalizing i with
  | nil => simp [connScan]
  | cons c rest ih =>
    intro x hx
    cases hbc : b c <;> simp only [connScan, hbc] at hx
    · simp only [List.mem_singleton] at hx
      simp [hx]
    · rcases List.mem_cons.mp hx with hx | hx
      · simp [hx]
      · exact List.mem_cons_of_mem c (ih (i + 1) x hx)
    · rcases List.mem_cons.mp hx with hx | hx
      · simp [hx]
      · exact List.mem_cons_of_mem c (ih (i + 1) x hx)

theorem foldl_eraseIdx_subset (js : List Nat) :
    ∀ (l : List α) (x : α), x ∈ js.foldl List.eraseIdx l → x ∈ l := by
  induction js with
  | nil => intro l x hx; exact hx
  | cons j js ih =>
    intro l x hx
    exact List.eraseIdx_subset l j (ih (l.eraseIdx j) x hx)

theorem removeByIdxDesc_subset (l : List α) (js : List Nat) (x : α)
    (hx : x ∈ removeByIdxDesc l js) : x ∈ l :=
  foldl_eraseIdx_subset js.reverse l x hx

/-
Helper lemmas about the assembled production step.
-/

theorem drainAccept_conns (env : Env) (s : IncomingState) :
    (drainAccept env s).conns = s.conns := by
  simp only [drainAccept]
  split <;> rfl

theorem stateAfterHs_conns (env : Env) (s : IncomingState) :
    (stateAfterHs env s).conns =
      s.conns ++ (hsScan env.hs_poll 0 (drainAccept env s).connectings).conns := by
  simp only [stateAfterHs, drainAccept_conns]

theorem completionCheck_item_iff (it : Option AcceptedUnit)
    (s3 : IncomingState) (u : AcceptedUnit) :
    completionCheck it s3 = .item u ↔ it = some u := by
  cases it with
  | some v => simp [completionCheck]
  | none =>
    simp only [completionCheck]
    split <;> simp

theorem completionCheck_finished_iff (s3 : IncomingState) :
    completionCheck none s3 = .finished ↔
      (s3.incoming_closed = true ∧ s3.connectings = [] ∧ s3.conns = []) := by
  simp only [completionCheck]
  split <;> simp_all

theorem completionCheck_none_not_finished (s3 : IncomingState)
    (h : ¬ (s3.incoming_closed = true ∧ s3.connectings = [] ∧ s3.conns = [])) :
    completionCheck none s3 = .pending := by
  simp only [completionCheck]
  split <;> simp_all

theorem pollNext_fst (env : Env) (s : IncomingState) :
    (pollNext env s).1 =
      completionCheck (connScan env.bi_poll 0 (stateAfterHs env s).conns).item
        (pollNext env s).2 := rfl

theorem pollNext_snd (env : Env) (s : IncomingState) :
    (pollNext env s).2 =
      { stateAfterHs env s with
        conns := removeByIdxDesc (stateAfterHs env s).conns
          (connScan env.bi_poll 0 (stateAfterHs env s).conns).completed } := rfl

theorem pollNext_item_iff (env : Env) (s : IncomingState) (u : AcceptedUnit) :
    (pollNext env s).1 = .item u ↔
      (connScan env.bi_poll 0 (stateAfterHs env s).conns).item = some u := by
  rw [pollNext_fst]
  exact completionCheck_item_iff _ _ u

theorem pollNext_terminal (env : Env) (s : IncomingState)
    (h1 : s.incoming_closed = true) (h2 : s.connectings = [])
    (h3 : s.conns = []) : pollNext env s = (.finished, s) := by
  cases s with
  | mk cg cn ic =>
    simp only at h1 h2 h3
    subst h1; subst h2; subst h3
    rfl

theorem runSteps_terminal (envs : List Env) (s : IncomingState)
    (h1 : s.incoming_closed = true) (h2 : s.connectings = [])
    (h3 : s.conns = []) : ∀ o ∈ (runSteps envs s).1, o = .finished := by
  induction envs with
  | nil => simp [runSteps]
  | cons e es ih =>
    intro o ho
    simp only [runSteps, pollNext_terminal e s h1 h2 h3] at ho
    rcases List.mem_cons.mp ho with ho | ho
    · exact ho
    · exact ih o ho

/-
Claim theorems.
-/

/-- C1: in one production step, whatever the two internal sets hold, at most
one Accepted Unit is returned (the step output carries a single optional
unit), it is the unit built from the first connection whose stream-accept
poll is ready, and the scan polls exactly the connections up to and
including that first ready one, stopping there. -/
theorem c1_at_most_one_unit_first_ready (env : Env) (s : IncomingState)
    (l₁ : List Connection) (c : Connection) (l₂ : List Connection)
    (send : SendStream) (recv : RecvStream)
    (hsplit : (stateAfterHs env s).conns = l₁ ++ c :: l₂)
    (hno : ∀ x ∈ l₁, (env.bi_poll x).isOk = false)
    (hc : env.bi_poll c = .ok send recv) :
    (pollNext env s).1 = .item (mkAccepted c send recv) ∧
    (connScan env.bi_poll 0 (stateAfterHs env s).conns).polled = l₁ ++ [c] := by
  have hscan := connScan_first_ok env.bi_poll l₁ c l₂ send recv hno hc
  constructor
  · rw [pollNext_item_iff, hsplit]
    exact hscan.1
  · rw [hsplit]
    exact hscan.2.2

/-- Witness for C1: with connections `[conn1, conn2]` where only `conn2` is
ready, the step returns the unit built from `conn2` and polls exactly
`[conn1, conn2]`. -/
theorem c1_witness :
    (pollNext envOkOn2 st12).1 = .item (mkAccepted conn2 send7 recv8) ∧
    (connScan envOkOn2.bi_poll 0 (stateAfterHs envOkOn2 st12).conns).polled =
      [conn1] ++ [conn2] :=
  c1_at_most_one_unit_first_ready envOkOn2 st12 [conn1] conn2 [] send7 recv8
    (by decide) (by decide) (by decide)

/-- C2: a production step that produces no Accepted Unit returns finished if
and only if closure is recorded and both sets are empty in the resulting
state (the instant of the completion check); in every other no-unit case it
returns pending; and once finished is returned, every later step returns
finished and never an item. -/
theorem c2_finished_exactly_when_drained (env : Env) (s : IncomingState)
    (hnone : (connScan env.bi_poll 0 (stateAfterHs env s).conns).item = none) :
    (∀ u, (pollNext env s).1 ≠ .item u) ∧
    ((pollNext env s).1 = .finished ↔
      ((pollNext env s).2.incoming_closed = true ∧
       (pollNext env s).2.connectings = [] ∧ (pollNext env s).2.conns = [])) ∧
    (¬ ((pollNext env s).2.incoming_closed = true ∧
        (pollNext env s).2.connectings = [] ∧ (pollNext env s).2.conns = []) →
      (pollNext env s).1 = .pending) ∧
    ((pollNext env s).1 = .finished →
      ∀ envs o, o ∈ (runSteps envs (pollNext env s).2).1 → o = .finished) := by
  have hfst : (pollNext env s).1 = completionCheck none (pollNext env s).2 := by
    rw [pollNext_fst, hnone]
  refine ⟨?_, ?_, ?_, ?_⟩
  · intro u hu
    rw [hfst, completionCheck_item_iff] at hu
    exact Option.noConfusion hu
  · rw [hfst]
    exact completionCheck_finished_iff _
  · intro hP
    rw [hfst]
    exact completionCheck_none_not_finished _ hP
  · intro hfin envs o ho
    rw [hfst] at hfin
    have hstate := (completionCheck_finished_iff (pollNext env s).2).mp hfin
    exact runSteps_terminal envs _ hstate.1 hstate.2.1 hstate.2.2 o ho

/-- Witness for C2: from the drained closed state the step returns finished,
and two further steps still return only finished. -/
theorem c2_witness :
    (pollNext envClosed stEmptyClosed).1 = .finished ∧
    ∀ o ∈ (runSteps [envClosed, envOkOn2] (pollNext envClosed stEmptyClosed).2).1,
      o = .finished := by
  have h := c2_finished_exactly_when_drained envClosed stEmptyClosed (by decide)
  have hfin : (pollNext envClosed stEmptyClosed).1 = .finished :=
    h.2.1.mpr (by decide)
  exact ⟨hfin, fun o ho => h.2.2.2 hfin [envClosed, envOkOn2] o ho⟩

/-- C3: in the handshake-advance pass of a step, every entry of the
pending-handshake set (after the drain) is polled exactly once and in order;
the resolved successes are appended to the established set in resolution
order; and the surviving pending set is, as a multiset, exactly the
unresolved entries — the swap-removal at descending indices neither skips
nor duplicates any entry. -/
theorem c3_handshake_pass_exact (env : Env) (s : IncomingState) :
    (hsScan env.hs_poll 0 (drainAccept env s).connectings).polled =
      (drainAccept env s).connectings ∧
    (stateAfterHs env s).conns =
      s.conns ++
        (drainAccept env s).connectings.filterMap (resolvedConn env.hs_poll) ∧
    List.Perm (stateAfterHs env s).connectings
      ((drainAccept env s).connectings.filter
        (fun c => (env.hs_poll c).isPending)) := by
  refine ⟨hsScan_polled _ _ _, ?_, ?_⟩
  · rw [stateAfterHs_conns, hsScan_conns]
  · show List.Perm
      (removeBySwapDesc (drainAccept env s).connectings
        (hsScan env.hs_poll 0 (drainAccept env s).connectings).completed) _
    exact removeBySwapDesc_perm _ _

/-- C4: a stream-accept error removes exactly that connection from the
established set in the same step, leaving the others (merely-pending
connections are never dropped) and not terminating the sequence while other
connections remain; and a connection absent from the set that no handshake
resolves to is never polled and never reappears in any later step. -/
theorem c4_err_drops_only_that_connection :
    (∀ (env : Env) (s : IncomingState) (l₁ : List Connection) (c : Connection)
        (l₂ : List Connection),
      (stateAfterHs env s).conns = l₁ ++ c :: l₂ →
      env.bi_poll c = .err →
      (∀ x ∈ l₁, (env.bi_poll x).isPending = true) →
      (∀ x ∈ l₂, (env.bi_poll x).isPending = true) →
      (pollNext env s).2.conns = l₁ ++ l₂ ∧
      (l₁ ++ l₂ ≠ [] → (pollNext env s).1 = .pending)) ∧
    (∀ (env : Env) (s : IncomingState) (c : Connection),
      c ∉ s.conns →
      (∀ x, resolvedConn env.hs_poll x ≠ some c) →
      c ∉ (connScan env.bi_poll 0 (stateAfterHs env s).conns).polled ∧
      c ∉ (pollNext env s).2.conns) := by
  constructor
  · intro env s l₁ c l₂ hsplit hcerr hl₁ hl₂
    have hpend_not_ok : ∀ r : BiRes, r.isPending = true → r.isOk = false := by
      intro r hr
      cases r <;> simp [BiRes.isPending, BiRes.isOk] at hr ⊢
    have hnoall : ∀ x ∈ l₁ ++ c :: l₂, (env.bi_poll x).isOk = false := by
      intro x hx
      rcases List.mem_append.mp hx with hx | hx
      · exact hpend_not_ok _ (hl₁ x hx)
      · rcases List.mem_cons.mp hx with hx | hx
        · subst hx
          simp [hcerr, BiRes.isOk]
        · exact hpend_not_ok _ (hl₂ x hx)
    have hscan := connScan_no_ok env.bi_poll (l₁ ++ c :: l₂) hnoall
    have hpost : (pollNext env s).2.conns = l₁ ++ l₂ := by
      rw [pollNext_snd]
      show removeByIdxDesc (stateAfterHs env s).conns
        (connScan env.bi_poll 0 (stateAfterHs env s).conns).completed = l₁ ++ l₂
      rw [hsplit, hscan.2.1]
      have hcfalse : (env.bi_poll c).isPending = false := by
        rw [hcerr]
        rfl
      rw [List.filter_append, List.filter_cons, hcfalse]
      rw [if_neg (by simp)]
      rw [List.filter_eq_self.mpr hl₁, List.filter_eq_self.mpr hl₂]
    refine ⟨hpost, ?_⟩
    intro hne
    have hnone : (connScan env.bi_poll 0 (stateAfterHs env s).conns).item
        = none := by
      rw [hsplit]
      exact hscan.1
    have hfst : (pollNext env s).1 = completionCheck none (pollNext env s).2 := by
      rw [pollNext_fst, hnone]
    rw [hfst]
    apply completionCheck_none_not_finished
    intro hcond
    exact hne (hpost ▸ hcond.2.2)
  · intro env s c hc hres
    have hs2 : c ∉ (stateAfterHs env s).conns := by
      rw [stateAfterHs_conns, hsScan_conns]
      intro hmem
      rcases List.mem_append.mp hmem with hmem | hmem
      · exact hc hmem
      · obtain ⟨x, _, hx⟩ := List.mem_filterMap.mp hmem
        exact hres x hx
    constructor
    · intro hp
      exact hs2 (connScan_polled_subset _ _ _ c hp)
    · intro hp
      rw [pollNext_snd] at hp
      exact hs2 (removeByIdxDesc_subset _ _ c hp)

/-- Witness for C4: with connections `[conn1, conn2, conn3]` where only
`conn2` errs, the step keeps exactly `[conn1, conn3]` and stays pending; and
the absent `conn2` of a later state is neither polled nor present after a
further step. -/
theorem c4_witness :
    ((pollNext envErrOn2 st123).2.conns = [conn1] ++ [conn3] ∧
      (pollNext envErrOn2 st123).1 = .pending) ∧
    (conn2 ∉ (connScan envErrOn2.bi_poll 0
        (stateAfterHs envErrOn2 st1).conns).polled ∧
      conn2 ∉ (pollNext envErrOn2 st1).2.conns) := by
  constructor
  · have h := c4_err_drops_only_that_connection.1 envErrOn2 st123 [conn1] conn2
      [conn3] (by decide) (by decide) (by decide) (by decide)
    exact ⟨h.1, h.2 (by decide)⟩
  · exact c4_err_drops_only_that_connection.2 envErrOn2 st1 conn2 (by decide)
      (fun x h => Option.noConfusion h)

/-- C5: every Accepted Unit a step produces is built from some connection of
the scanned established set whose stream-accept poll was ready: its Session
peer address equals that connection's reported remote address and its
Session stream index equals the index of the accepted stream's write half. -/
theorem c5_session_fields_match (env : Env) (s : IncomingState)
    (u : AcceptedUnit) (h : (pollNext env s).1 = .item u) :
    ∃ c send recv,
      c ∈ (stateAfterHs env s).conns ∧ env.bi_poll c = .ok send recv ∧
      u.sess.source = c.remote_address ∧
      u.sess.stream_id = some send.id_index ∧ u.send = send ∧ u.recv = recv := by
  rw [pollNext_item_iff] at h
  obtain ⟨c, send, recv, hmem, hbc, hu⟩ := connScan_item_some _ _ _ _ h
  subst hu
  exact ⟨c, send, recv, hmem, hbc, rfl, rfl, rfl, rfl⟩

/-- Witness for C5: the unit produced from `conn2` carries peer address 23
and stream index 7. -/
theorem c5_witness :
    ∃ c send recv,
      c ∈ (stateAfterHs envOkOn2 st12).conns ∧
      envOkOn2.bi_poll c = .ok send recv ∧
      (mkAccepted conn2 send7 recv8).sess.source = c.remote_address ∧
      (mkAccepted conn2 send7 recv8).sess.stream_id = some send.id_index ∧
      (mkAccepted conn2 send7 recv8).send = send ∧
      (mkAccepted conn2 send7 recv8).recv = recv :=
  c5_session_fields_match envOkOn2 st12 (mkAccepted conn2 send7 recv8)
    (by decide)

/-- C10: when the step produces its unit from the connection at position i
of the scanned established set, that connection stays in the set, every
later connection is left in place unchanged (none of them can be removed
this step), and the scan polled only the connections up to and including
position i. -/
theorem c10_later_connections_untouched (env : Env) (s : IncomingState)
    (l₁ : List Connection) (c : Connection) (l₂ : List Connection)
    (send : SendStream) (recv : RecvStream)
    (hsplit : (stateAfterHs env s).conns = l₁ ++ c :: l₂)
    (hno : ∀ x ∈ l₁, (env.bi_poll x).isOk = false)
    (hc : env.bi_poll c = .ok send recv) :
    (pollNext env s).2.conns =
      l₁.filter (fun x => (env.bi_poll x).isPending) ++ c :: l₂ ∧
    c ∈ (pollNext env s).2.conns ∧
    (connScan env.bi_poll 0 (stateAfterHs env s).conns).polled = l₁ ++ [c] := by
  have hscan := connScan_first_ok env.bi_poll l₁ c l₂ send recv hno hc
  have hconns : (pollNext env s).2.conns =
      l₁.filter (fun x => (env.bi_poll x).isPending) ++ c :: l₂ := by
    rw [pollNext_snd]
    show removeByIdxDesc (stateAfterHs env s).conns
      (connScan env.bi_poll 0 (stateAfterHs env s).conns).completed = _
    rw [hsplit]
    exact hscan.2.1
  refine ⟨hconns, ?_, ?_⟩
  · rw [hconns]
    exact List.mem_append_right _ (by simp)
  · rw [hsplit]
    exact hscan.2.2

/-- Witness for C10: producing from `conn2` keeps `[conn1, conn2, conn3]`
intact, `conn2` stays, and only `[conn1, conn2]` were polled. -/
theorem c10_witness :
    (pollNext envOkOn2 st123).2.conns =
      [conn1].filter (fun x => (envOkOn2.bi_poll x).isPending) ++
        conn2 :: [conn3] ∧
    conn2 ∈ (pollNext envOkOn2 st123).2.conns ∧
    (connScan envOkOn2.bi_poll 0 (stateAfterHs envOkOn2 st123).conns).polled =
      [conn1] ++ [conn2] :=
  c10_later_connections_untouched envOkOn2 st123 [conn1] conn2 [conn3]
    send7 recv8 (by decide) (by decide) (by decide)

/-
Helper lemmas about handler construction.
-/

theorem alpn_foldl (alpns : List String) :
    ∀ cr : ServerCryptoConfig,
      (alpns.foldl (fun cr alpn =>
        { cr with alpn_protocols := cr.alpn_protocols ++ [strBytes alpn] })
        cr).alpn_protocols = cr.alpn_protocols ++ alpns.map strBytes := by
  induction alpns with
  | nil =>
    intro cr
    simp
  | cons a as ih =>
    intro cr
    simp only [List.foldl_cons, List.map_cons]
    rw [ih]
    simp

theorem handlerNew_ok_destruct (fs : FsEnv) (pem : PemEnv) (tls : TlsEnv)
    (certificate certificate_key : String) (alpns : List String) (h : Handler)
    (hok : handlerNew fs pem tls certificate certificate_key alpns = .ok h) :
    h.server_config.transport.max_concurrent_bidi_streams = 64 ∧
    h.server_config.transport.max_idle_timeout = some 300000 ∧
    h.server_config.transport.congestion = .bbr ∧
    h.server_config.crypto.alpn_protocols = alpns.map strBytes := by
  unfold handlerNew at hok
  cases h1 : fs.read certificate with
  | error e =>
    simp only [h1] at hok
    exact Except.noConfusion hok
  | ok certBytes =>
    simp only [h1] at hok
    cases h2 : fs.read certificate_key with
    | error e =>
      simp only [h2] at hok
      exact Except.noConfusion hok
    | ok keyBytes =>
      simp only [h2] at hok
      cases h3 : loadCert pem certificate certBytes with
      | error e =>
        simp only [h3] at hok
        exact Except.noConfusion hok
      | ok cert =>
        simp only [h3] at hok
        cases h4 : loadKey pem certificate_key keyBytes with
        | error e =>
          simp only [h4] at hok
          exact Except.noConfusion hok
        | ok key =>
          simp only [h4] at hok
          cases h5 : tls.with_single_cert cert key with
          | error e =>
            simp only [h5] at hok
            exact Except.noConfusion hok
          | ok ident =>
            simp only [h5] at hok
            have hh := Except.ok.inj hok
            subst hh
            refine ⟨rfl, rfl, rfl, ?_⟩
            have halpn := alpn_foldl alpns { ident := ident, alpn_protocols := [] }
            exact halpn.trans (List.nil_append _)

theorem handlerNew_key_error (fs : FsEnv) (pem : PemEnv) (tls : TlsEnv)
    (certificate certificate_key : String) (alpns : List String)
    (certBytes keyBytes : List Nat) (certs : List Certificate)
    (e : HandlerError)
    (h1 : fs.read certificate = .ok certBytes)
    (h2 : fs.read certificate_key = .ok keyBytes)
    (h3 : loadCert pem certificate certBytes = .ok certs)
    (h4 : loadKey pem certificate_key keyBytes = .error e) :
    handlerNew fs pem tls certificate certificate_key alpns = .error e := by
  unfold handlerNew
  simp only [h1, h2, h3, h4]

/-- C6: for a key file whose extension is not the raw-binary one, the key is
sought in the fixed order PKCS8 container, then RSA, then elliptic-curve,
the first successfully parsed key wins, the search falls through only on an
empty parse, a construction-time error is raised when all three formats are
empty, and such a key-loading error makes `Handler::new` fail with it, so no
Handler value is produced. -/
theorem c6_key_priority_order :
    (∀ (pem : PemEnv) (path : String) (bytes : List Nat),
      extensionOf path ≠ some "der" →
      (∀ k ks, pem.pkcs8_private_keys bytes = .ok (k :: ks) →
        loadKey pem path bytes = .ok ⟨k⟩) ∧
      (pem.pkcs8_private_keys bytes = .ok [] →
        ∀ k ks, pem.rsa_private_keys bytes = .ok (k :: ks) →
          loadKey pem path bytes = .ok ⟨k⟩) ∧
      (pem.pkcs8_private_keys bytes = .ok [] →
        pem.rsa_private_keys bytes = .ok [] →
        ∀ k ks, pem.ec_private_keys bytes = .ok (k :: ks) →
          loadKey pem path bytes = .ok ⟨k⟩) ∧
      (pem.pkcs8_private_keys bytes = .ok [] →
        pem.rsa_private_keys bytes = .ok [] →
        pem.ec_private_keys bytes = .ok [] →
        loadKey pem path bytes = .error .noPrivateKeysFound)) ∧
    (∀ (fs : FsEnv) (pem : PemEnv) (tls : TlsEnv)
        (certificate certificate_key : String) (alpns : List String)
        (certBytes keyBytes : List Nat) (certs : List Certificate)
        (e : HandlerError),
      fs.read certificate = .ok certBytes →
      fs.read certificate_key = .ok keyBytes →
      loadCert pem certificate certBytes = .ok certs →
      loadKey pem certificate_key keyBytes = .error e →
      handlerNew fs pem tls certificate certificate_key alpns = .error e) := by
  constructor
  · intro pem path bytes hext
    refine ⟨?_, ?_, ?_, ?_⟩
    · intro k ks hpk
      simp [loadKey, hext, loadTextKey, hpk]
    · intro hpk k ks hrsa
      simp [loadKey, hext, loadTextKey, hpk, hrsa]
    · intro hpk hrsa k ks hec
      simp [loadKey, hext, loadTextKey, hpk, hrsa, hec]
    · intro hpk hrsa hec
      simp [loadKey, hext, loadTextKey, hpk, hrsa, hec]
  · intro fs pem tls certificate certificate_key alpns certBytes keyBytes
      certs e h1 h2 h3 h4
    exact handlerNew_key_error fs pem tls certificate certificate_key alpns
      certBytes keyBytes certs e h1 h2 h3 h4

/-- Witness for C6: the RSA fallback yields the key when the PKCS8 parse is
empty, and a key file with no parseable block of any kind fails with the
no-private-keys configuration error. -/
theorem c6_witness :
    loadKey pemRsaOnly "server-key.pem" [0] = .ok ⟨[9]⟩ ∧
    loadKey pemNoKeys "server-key.pem" [0] = .error .noPrivateKeysFound := by
  constructor
  · exact (c6_key_priority_order.1 pemRsaOnly "server-key.pem" [0]
      (by decide)).2.1 (by rfl) [9] [] (by rfl)
  · exact (c6_key_priority_order.1 pemNoKeys "server-key.pem" [0]
      (by decide)).2.2.2 (by rfl) (by rfl) (by rfl)

/-- C9: for a text-encoded key file, when the PKCS8 PEM parse itself returns
an error, loading fails immediately with that error no matter what the RSA
and elliptic-curve parsers would answer — they are never attempted; more
generally the fallback parsers can influence the result only when the PKCS8
parse succeeds with an empty key list. -/
theorem c9_pkcs8_error_stops_fallback :
    (∀ (pem : PemEnv) (path : String) (bytes : List Nat) (e : String),
      extensionOf path ≠ some "der" →
      pem.pkcs8_private_keys bytes = .error e →
      ∀ f g,
        loadKey { pem with rsa_private_keys := f, ec_private_keys := g }
          path bytes = .error (.pemError e)) ∧
    (∀ (pem : PemEnv) (path : String) (bytes : List Nat),
      extensionOf path ≠ some "der" →
      pem.pkcs8_private_keys bytes ≠ .ok [] →
      ∀ f g,
        loadKey { pem with rsa_private_keys := f, ec_private_keys := g }
          path bytes = loadKey pem path bytes) ∧
    (∀ (pem : PemEnv) (path : String) (bytes : List Nat),
      extensionOf path ≠ some "der" →
      pem.pkcs8_private_keys bytes = .ok [] →
      pem.rsa_private_keys bytes ≠ .ok [] →
      ∀ g,
        loadKey { pem with ec_private_keys := g } path bytes =
          loadKey pem path bytes) ∧
    (∀ (fs : FsEnv) (pem : PemEnv) (tls : TlsEnv)
        (certificate certificate_key : String) (alpns : List String)
        (certBytes keyBytes : List Nat) (certs : List Certificate)
        (e : String),
      fs.read certificate = .ok certBytes →
      fs.read certificate_key = .ok keyBytes →
      loadCert pem certificate certBytes = .ok certs →
      extensionOf certificate_key ≠ some "der" →
      pem.pkcs8_private_keys keyBytes = .error e →
      handlerNew fs pem tls certificate certificate_key alpns =
        .error (.pemError e)) := by
  refine ⟨?_, ?_, ?_, ?_⟩
  · intro pem path bytes e hext hpk f g
    simp [loadKey, hext, loadTextKey, hpk]
  · intro pem path bytes hext hne f g
    cases hpk : pem.pkcs8_private_keys bytes with
    | error e => simp [loadKey, hext, loadTextKey, hpk]
    | ok ks =>
      cases ks with
      | nil => exact absurd hpk hne
      | cons k ks => simp [loadKey, hext, loadTextKey, hpk]
  · intro pem path bytes hext hpk hne g
    cases hrsa : pem.rsa_private_keys bytes with
    | error e => simp [loadKey, hext, loadTextKey, hpk, hrsa]
    | ok ks =>
      cases ks with
      | nil => exact absurd hrsa hne
      | cons k ks => simp [loadKey, hext, loadTextKey, hpk, hrsa]
  · intro fs pem tls certificate certificate_key alpns certBytes keyBytes
      certs e h1 h2 h3 hext hpk
    have h4 : loadKey pem certificate_key keyBytes = .error (.pemError e) := by
      simp [loadKey, hext, loadTextKey, hpk]
    exact handlerNew_key_error fs pem tls certificate certificate_key alpns
      certBytes keyBytes certs _ h1 h2 h3 h4

/-- Witness for C9: with a failing PKCS8 parse, the result is that parse
error even when both fallback parsers would themselves fail differently. -/
theorem c9_witness :
    loadKey
      { pemPkcs8Fails with
        rsa_private_keys := fun _ => .error "x",
        ec_private_keys := fun _ => .error "y" }
      "server-key.pem" [0] = .error (.pemError "bad pem") :=
  c9_pkcs8_error_stops_fallback.1 pemPkcs8Fails "server-key.pem" [0]
    "bad pem" (by decide) (by rfl) _ _

/-- C7: every handler `Handler::new` succeeds in building fixes the
transport parameters independently of caller input: 64 maximum concurrent
bidirectional streams, a 300000 millisecond idle timeout, and the BBR
congestion controller in place of the default. -/
theorem c7_transport_params_fixed (fs : FsEnv) (pem : PemEnv) (tls : TlsEnv)
    (certificate certificate_key : String) (alpns : List String) (h : Handler)
    (hok : handlerNew fs pem tls certificate certificate_key alpns = .ok h) :
    h.server_config.transport.max_concurrent_bidi_streams = 64 ∧
    h.server_config.transport.max_idle_timeout = some 300000 ∧
    h.server_config.transport.congestion = .bbr := by
  have d := handlerNew_ok_destruct fs pem tls certificate certificate_key
    alpns h hok
  exact ⟨d.1, d.2.1, d.2.2.1⟩

/-- Witness for C7: the sample construction succeeds and its transport
configuration carries the three fixed values. -/
theorem c7_witness :
    handlerNew fsSample pemSample tlsSample "server.pem" "server-key.pem"
      ["h3"] = .ok handlerSample ∧
    handlerSample.server_config.transport.max_concurrent_bidi_streams = 64 ∧
    handlerSample.server_config.transport.max_idle_timeout = some 300000 ∧
    handlerSample.server_config.transport.congestion = .bbr :=
  ⟨by rfl,
    c7_transport_params_fixed fsSample pemSample tlsSample "server.pem"
      "server-key.pem" ["h3"] handlerSample (by rfl)⟩

/-- C8: every handler `Handler::new` succeeds in building advertises exactly
the byte encodings of the supplied application-protocol identifiers, in the
caller-supplied order. -/
theorem c8_alpn_exact_order (fs : FsEnv) (pem : PemEnv) (tls : TlsEnv)
    (certificate certificate_key : String) (alpns : List String) (h : Handler)
    (hok : handlerNew fs pem tls certificate certificate_key alpns = .ok h) :
    h.server_config.crypto.alpn_protocols = alpns.map strBytes :=
  (handlerNew_ok_destruct fs pem tls certificate certificate_key alpns h
    hok).2.2.2

/-- Witness for C8: with ALPN list `["h3"]` the sample construction
advertises exactly the single protocol byte string `"h3"`. -/
theorem c8_witness :
    handlerNew fsSample pemSample tlsSample "server.pem" "server-key.pem"
      ["h3"] = .ok handlerSample ∧
    handlerSample.server_config.crypto.alpn_protocols = [[104, 51]] := by
  refine ⟨by rfl, ?_⟩
  have h := c8_alpn_exact_order fsSample pemSample tlsSample "server.pem"
    "server-key.pem" ["h3"] handlerSample (by rfl)
  exact h.trans (by decide)

end QuicInbound
